import Mathlib

/-
Verification of the wrap / fit-solver core of dynamic-text-resizer.

The repository implements the same algorithm twice:
  * src/dynamic-text-resizer.py       (Tkinter), calculate_wrapped_lines (lines 192-229)
    and adjust_font_size (lines 129-190);
  * src/dynamic-text-resizer-pyqt.py  (PyQt),    calculate_wrapped_lines (lines 108-125)
    and adjust_font_size (lines 69-100).

The font-metrics provider is abstracted as a function from strings to
measured pixel widths (natural numbers), indexed by the integer font size
where the fit solver is concerned.  Widths and heights of the viewport are
natural numbers of pixels.  All definitions below are direct translations
of the Python source.
-/

/-- Python str.split(sep) for a one-character separator, acting on a
character list: groups between separator occurrences are kept, including
empty groups, and the empty input yields one empty group. -/
def splitOnPred (p : Char → Bool) : List Char → List (List Char)
  | [] => [[]]
  | a :: rest =>
    match splitOnPred p rest with
    | [] => [[a]]
    | g :: gs => if p a then [] :: g :: gs else (a :: g) :: gs

/-- Python text.split of the newline character, as used by both sources
to cut the text into paragraphs. -/
def splitParas (text : String) : List String :=
  (splitOnPred (fun c => c = '\n') text.toList).map (fun g => String.mk g)

/-- Python whitespace characters, the separators of str.split() with no
argument. -/
def isPySpace (c : Char) : Bool :=
  c = ' ' || c = '\t' || c = '\n' || c = '\r' || c = '\x0b' || c = '\x0c'

/-- Python paragraph.split(): split on whitespace runs, dropping empty
pieces, so every returned word is non-empty. -/
def splitWords (s : String) : List String :=
  ((splitOnPred isPySpace s.toList).filter (fun g => g ≠ [])).map (fun g => String.mk g)

/-- The greedy accumulation loop shared by both sources: for each word,
form the trial line (current line + single space + word, or just the word
when the current line is empty); accept it as the new current line when
its measured width fits, otherwise emit the current line and restart from
the word.  Returns the emitted completed lines and the final current
line. -/
def greedyLoop (m : String → ℕ) (width : ℕ) : String → List String → List String × String
  | cur, [] => ([], cur)
  | cur, w :: rest =>
    let test := if cur = "" then w else cur ++ " " ++ w
    if m test ≤ width then greedyLoop m width test rest
    else
      let r := greedyLoop m width w rest
      (cur :: r.1, r.2)

/-- Lines contributed by one paragraph in the Tkinter source
(dynamic-text-resizer.py lines 201-223): an empty or whitespace-only
paragraph contributes one empty line; otherwise the greedy loop runs and
the final current line is appended when non-empty (the disjunct with the
empty word list mirrors the source literally). -/
def paraLines (m : String → ℕ) (width : ℕ) (p : String) : List String :=
  if p = "" then [""]
  else
    let ws := splitWords p
    if ws = [] then [""]
    else
      let r := greedyLoop m width "" ws
      r.1 ++ (if r.2 ≠ "" ∨ ws = [] then [r.2] else [])

/-- The per-paragraph accumulation of all_lines across the paragraph
loop. -/
def concatMap (f : String → List String) : List String → List String
  | [] => []
  | p :: ps => f p ++ concatMap f ps

/-- calculate_wrapped_lines of the Tkinter source
(dynamic-text-resizer.py lines 192-229). -/
def calculate_wrapped_lines (m : String → ℕ) (width : ℕ) (text : String) : List String :=
  if text = "" then [""]
  else
    let all := concatMap (paraLines m width) (splitParas text)
    if all = [] then [""] else all

/-- Lines contributed by one paragraph in the PyQt source
(dynamic-text-resizer-pyqt.py lines 111-124): no empty-paragraph shortcut
and the final current line is appended unconditionally. -/
def paraLinesQt (m : String → ℕ) (width : ℕ) (p : String) : List String :=
  let ws := splitWords p
  if ws = [] then [""]
  else
    let r := greedyLoop m width "" ws
    r.1 ++ [r.2]

/-- calculate_wrapped_lines of the PyQt source
(dynamic-text-resizer-pyqt.py lines 108-125). -/
def calculate_wrapped_lines_pyqt (m : String → ℕ) (width : ℕ) (text : String) : List String :=
  let all := concatMap (paraLinesQt m width) (splitParas text)
  if all = [] then [""] else all

/-- The binary-search loop of adjust_font_size, common to both sources:
while lo ≤ hi, test the midpoint (Python floor division, which for the
positive divisor 2 is integer ediv); on a fit record it as best and
search larger sizes, otherwise search smaller sizes. -/
def searchLoop (fits : ℤ → Bool) (lo hi best : ℤ) : ℤ :=
  if h : lo ≤ hi then
    let mid := (lo + hi) / 2
    if fits mid then searchLoop fits (mid + 1) hi mid
    else searchLoop fits lo (mid - 1) best
  else best
termination_by (hi + 1 - lo).toNat
decreasing_by
  · omega
  · omega

/-- Total wrapped height at a candidate size: number of wrapped lines
times the line height reported by the metrics provider at that size. -/
def totalHeight (fam : ℤ → String → ℕ) (lineH : ℤ → ℕ)
    (text : String) (width : ℕ) (sz : ℤ) : ℕ :=
  (calculate_wrapped_lines (fam sz) width text).length * lineH sz

/-- The optimal_size / best_size found by the binary search of
adjust_font_size over the bounds [8, 200]. -/
def bestSize (fam : ℤ → String → ℕ) (lineH : ℤ → ℕ)
    (text : String) (width height : ℕ) : ℤ :=
  searchLoop (fun sz => decide (totalHeight fam lineH text width sz ≤ height)) 8 200 8

/-- adjust_font_size, modelled as the new font size it leaves behind
(dynamic-text-resizer.py lines 129-190, dynamic-text-resizer-pyqt.py
lines 69-100): empty text resets to the default size 72; a degenerate
viewport defers, leaving the current size unchanged; otherwise the binary
search runs and the safety margin of 2 is applied, re-clamped to the
minimum size 8. -/
def adjust_font_size (fam : ℤ → String → ℕ) (lineH : ℤ → ℕ)
    (text : String) (width height : ℕ) (currentSize : ℤ) : ℤ :=
  if text = "" then 72
  else if width ≤ 1 ∨ height ≤ 1 then currentSize
  else max 8 (bestSize fam lineH text width height - 2)

/-- Concatenation of a run of words joined by exactly one space, used to
describe the shape of wrapped lines. -/
def joinWords : List String → String
  | [] => ""
  | [w] => w
  | w :: v :: rest => w ++ " " ++ joinWords (v :: rest)

/-- A concrete metrics function: measured width = number of characters.
It measures the empty string as 0, as every real font metric does. -/
def strLen : String → ℕ := fun s => s.length

/-- Size-dependent increment of the counterexample metrics family for the
line-count monotonicity claim. -/
def deltaC3 : String → ℕ := fun s => if s = "a b" then 6 else 0

/-- Base measures of the counterexample metrics family. -/
def baseC3 : String → ℕ := fun s =>
  if s = "a" then 1 else if s = "a b" then 5 else if s = "a b c" then 11
  else if s = "b" then 1 else if s = "b c" then 4 else if s = "b c d" then 6
  else if s = "c" then 1 else if s = "c d" then 11 else if s = "d" then 1
  else s.length

/-- A metrics family that is monotonically non-decreasing in the font
size for every string (the measure only steps up, by deltaC3, once the
size reaches 2). -/
def famC3 : ℤ → String → ℕ := fun sz s => if 2 ≤ sz then baseC3 s + deltaC3 s else baseC3 s

/- ------------------------------------------------------------------ -/
/- Helper lemmas                                                       -/
/- ------------------------------------------------------------------ -/

theorem append_space_ne (cur w : String) : cur ++ " " ++ w ≠ "" := by
  intro h
  have hl := congrArg String.length h
  have h1 : (" " : String).length = 1 := rfl
  have h0 : ("" : String).length = 0 := rfl
  simp only [String.length_append, h1, h0] at hl
  omega

theorem testLine_ne (cur w : String) (hw : w ≠ "") :
    (if cur = "" then w else cur ++ " " ++ w) ≠ "" := by
  by_cases hc : cur = ""
  · simpa [hc] using hw
  · simpa [hc] using append_space_ne cur w

theorem mem_splitWords_ne (p : String) : ∀ w ∈ splitWords p, w ≠ "" := by
  intro w hw
  unfold splitWords at hw
  simp only [List.mem_map, List.mem_filter, decide_eq_true_eq] at hw
  obtain ⟨g, ⟨_, hgne⟩, rfl⟩ := hw
  intro hmk
  apply hgne
  have : (String.mk g).data = ("" : String).data := by rw [hmk]
  simpa using this

theorem greedyLoop_start (m : String → ℕ) (W : ℕ) (w : String) (rest : List String) :
    greedyLoop m W "" (w :: rest)
      = if m w ≤ W then greedyLoop m W w rest
        else ("" :: (greedyLoop m W w rest).1, (greedyLoop m W w rest).2) := by
  simp [greedyLoop]

theorem greedyLoop_cons (m : String → ℕ) (W : ℕ) (cur w : String) (rest : List String)
    (hcur : cur ≠ "") :
    greedyLoop m W cur (w :: rest)
      = if m (cur ++ " " ++ w) ≤ W then greedyLoop m W (cur ++ " " ++ w) rest
        else (cur :: (greedyLoop m W w rest).1, (greedyLoop m W w rest).2) := by
  simp [greedyLoop, hcur]

theorem greedy_fin_ne (m : String → ℕ) (W : ℕ) :
    ∀ ws : List String, (∀ w ∈ ws, w ≠ "") → ∀ cur : String, cur ≠ "" →
      (greedyLoop m W cur ws).2 ≠ "" := by
  intro ws
  induction ws with
  | nil => intro _ cur hcur; simpa [greedyLoop] using hcur
  | cons w rest ih =>
    intro hws cur hcur
    have hw : w ≠ "" := hws w (by simp)
    have hrest : ∀ x ∈ rest, x ≠ "" := fun x hx => hws x (by simp [hx])
    rw [greedyLoop_cons m W cur w rest hcur]
    split
    · exact ih hrest _ (append_space_ne cur w)
    · simpa using ih hrest w hw

theorem greedy_start_fin_ne (m : String → ℕ) (W : ℕ) (w : String) (rest : List String)
    (hw : w ≠ "") (hrest : ∀ x ∈ rest, x ≠ "") :
    (greedyLoop m W "" (w :: rest)).2 ≠ "" := by
  rw [greedyLoop_start]
  split
  · exact greedy_fin_ne m W rest hrest w hw
  · simpa using greedy_fin_ne m W rest hrest w hw

theorem mem_concatMap (f : String → List String) :
    ∀ ps l, l ∈ concatMap f ps ↔ ∃ p ∈ ps, l ∈ f p := by
  intro ps l
  induction ps with
  | nil => simp [concatMap]
  | cons p ps ih => simp [concatMap, ih, List.mem_append]

theorem splitOnPred_ne_nil (p : Char → Bool) : ∀ cs : List Char, splitOnPred p cs ≠ [] := by
  intro cs
  cases cs with
  | nil => simp [splitOnPred]
  | cons a rest =>
    simp only [splitOnPred]
    split
    · simp
    · split <;> simp

theorem splitParas_ne_nil (text : String) : splitParas text ≠ [] := by
  unfold splitParas
  intro h
  exact splitOnPred_ne_nil _ text.toList (by simpa using h)

theorem splitWords_fin_ne (m : String → ℕ) (W : ℕ) (p : String)
    (hws : splitWords p ≠ []) :
    (greedyLoop m W "" (splitWords p)).2 ≠ "" := by
  obtain ⟨w, rest, hwr⟩ : ∃ w rest, splitWords p = w :: rest := by
    cases h : splitWords p with
    | nil => exact absurd h hws
    | cons a b => exact ⟨a, b, rfl⟩
  rw [hwr]
  exact greedy_start_fin_ne m W w rest
    (mem_splitWords_ne p w (hwr ▸ List.mem_cons_self w rest))
    (fun x hx => mem_splitWords_ne p x (hwr ▸ List.mem_cons_of_mem w hx))

theorem paraLines_ne_nil (m : String → ℕ) (W : ℕ) (p : String) :
    paraLines m W p ≠ [] := by
  simp only [paraLines]
  split
  · simp
  · split
    · simp
    · rename_i hws
      rw [if_pos (Or.inl (splitWords_fin_ne m W p hws))]
      simp

theorem greedy_no_empty (m : String → ℕ) (W : ℕ) :
    ∀ ws : List String, (∀ w ∈ ws, w ≠ "") → ∀ cur : String, cur ≠ "" →
      "" ∉ (greedyLoop m W cur ws).1 := by
  intro ws
  induction ws with
  | nil => intro _ cur _; simp [greedyLoop]
  | cons w rest ih =>
    intro hws cur hcur
    have hw : w ≠ "" := hws w (by simp)
    have hrest : ∀ x ∈ rest, x ≠ "" := fun x hx => hws x (by simp [hx])
    rw [greedyLoop_cons m W cur w rest hcur]
    split
    · exact ih hrest _ (append_space_ne cur w)
    · intro hmem
      rcases List.mem_cons.mp hmem with h | h
      · exact hcur h.symm
      · exact ih hrest w hw h

theorem paraLines_single (m : String → ℕ) (W : ℕ) (p w : String)
    (hp : p ≠ "") (hsw : splitWords p = [w]) (hfit : m w ≤ W) :
    paraLines m W p = [w] := by
  have hwne : w ≠ "" := mem_splitWords_ne p w (hsw ▸ List.mem_cons_self w [])
  simp only [paraLines, hsw]
  rw [if_neg hp]
  rw [if_neg (by simp : ¬([w] : List String) = [])]
  rw [greedyLoop_start, if_pos hfit]
  simp [greedyLoop, hwne]

theorem paraLines_eq_paraLinesQt (m : String → ℕ) (W : ℕ) (p : String) :
    paraLines m W p = paraLinesQt m W p := by
  by_cases hp : p = ""
  · subst hp
    have h : splitWords "" = [] := rfl
    simp [paraLines, paraLinesQt, h]
  · by_cases hws : splitWords p = []
    · simp [paraLines, paraLinesQt, hp, hws]
    · simp only [paraLines, paraLinesQt, if_neg hp, if_neg hws]
      rw [if_pos (Or.inl (splitWords_fin_ne m W p hws))]

/-- Claim C9: the Tkinter and PyQt implementations of
calculate_wrapped_lines are extensionally equal: for every deterministic
width-measurement function, every width and every text, both return the
identical sequence of lines. -/
theorem calculate_wrapped_lines_toolkit_eq (m : String → ℕ) (W : ℕ) (text : String) :
    calculate_wrapped_lines m W text = calculate_wrapped_lines_pyqt m W text := by
  have hfun : paraLines m W = paraLinesQt m W := funext (paraLines_eq_paraLinesQt m W)
  by_cases ht : text = ""
  · subst ht
    have h1 : splitParas "" = [""] := rfl
    have h2 : paraLinesQt m W "" = [""] := by
      have h : splitWords "" = [] := rfl
      simp [paraLinesQt, h]
    simp [calculate_wrapped_lines, calculate_wrapped_lines_pyqt, h1, h2, concatMap]
  · simp only [calculate_wrapped_lines, calculate_wrapped_lines_pyqt, if_neg ht, hfun]

/-- Claim C5: on empty text, adjust_font_size returns the canonical
default size 72 for every viewport, including degenerate ones, and
independently of the metrics provider (so without consulting the binary
search); 72 already lies within the bounds [8, 200]. -/
theorem adjust_font_size_empty (fam : ℤ → String → ℕ) (lineH : ℤ → ℕ)
    (width height : ℕ) (currentSize : ℤ) :
    adjust_font_size fam lineH "" width height currentSize = 72 ∧
      (8 : ℤ) ≤ 72 ∧ (72 : ℤ) ≤ 200 := by
  refine ⟨?_, by decide, by decide⟩
  simp [adjust_font_size]

/-- Claim C8: with non-empty text and a degenerate viewport (width ≤ 1 or
height ≤ 1), adjust_font_size leaves the current font size unchanged, for
every metrics provider (no binary search is consulted). -/
theorem adjust_font_size_degenerate (fam : ℤ → String → ℕ) (lineH : ℤ → ℕ)
    (text : String) (width height : ℕ) (currentSize : ℤ)
    (ht : text ≠ "") (hdeg : width ≤ 1 ∨ height ≤ 1) :
    adjust_font_size fam lineH text width height currentSize = currentSize := by
  unfold adjust_font_size
  rw [if_neg ht, if_pos hdeg]

/-- Witness for adjust_font_size_degenerate at a concrete input. -/
theorem adjust_font_size_degenerate_wit :
    ("a" : String) ≠ "" ∧ ((1 : ℕ) ≤ 1 ∨ (5 : ℕ) ≤ 1) ∧
      adjust_font_size (fun _ s => s.length) (fun _ => 1) "a" 1 5 33 = 33 :=
  ⟨by decide, Or.inl (by decide),
    adjust_font_size_degenerate (fun _ s => s.length) (fun _ => 1) "a" 1 5 33
      (by decide) (Or.inl (by decide))⟩

/-- Claim C1 counterexample: with the character-count metric (which, like
every real font metric, measures the empty string as 0) and width 0, the
single-paragraph text made of the one word a has its first word rejected
by the width test, and wrap emits an empty line inside the paragraph
before it: the claim that the first word is never rejected is false. -/
theorem wrap_first_word_cex :
    strLen "" = 0 ∧ calculate_wrapped_lines strLen 0 "a" = ["", "a"] :=
  ⟨rfl, by decide⟩

/-- Claim C1 (amended): the completed line emitted when a word fails the
width test is non-empty whenever the current line is non-empty; since the
first word of a paragraph is the only word tested against an empty
current line, wrap emits no empty line within a paragraph provided that
paragraph's first word's own measured width fits the available width.
(When the first word's own width exceeds the width it is rejected and an
empty line is emitted before it, as the counterexample shows.) -/
theorem wrap_no_empty_line_of_first_word_fits (m : String → ℕ) (W : ℕ) (p : String)
    (w : String) (ws : List String) (hsw : splitWords p = w :: ws) (hfit : m w ≤ W) :
    "" ∉ paraLines m W p := by
  have hp : p ≠ "" := by
    intro h
    subst h
    rw [show splitWords "" = [] from rfl] at hsw
    exact List.noConfusion hsw
  have hwne : w ≠ "" := mem_splitWords_ne p w (hsw ▸ List.mem_cons_self w ws)
  have hrest : ∀ x ∈ ws, x ≠ "" :=
    fun x hx => mem_splitWords_ne p x (hsw ▸ List.mem_cons_of_mem w hx)
  have hne : splitWords p ≠ [] := by rw [hsw]; simp
  simp only [paraLines, if_neg hp, if_neg hne]
  rw [if_pos (Or.inl (splitWords_fin_ne m W p hne))]
  intro hmem
  rcases List.mem_append.mp hmem with h | h
  · rw [hsw, greedyLoop_start, if_pos hfit] at h
    exact greedy_no_empty m W ws hrest w hwne h
  · exact splitWords_fin_ne m W p hne (List.mem_singleton.mp h).symm

/-- Witness for wrap_no_empty_line_of_first_word_fits at a concrete
input. -/
theorem wrap_no_empty_line_of_first_word_fits_wit :
    splitWords "ab cd" = ["ab", "cd"] ∧ strLen "ab" ≤ 5 ∧
      "" ∉ paraLines strLen 5 "ab cd" :=
  ⟨by decide, by decide,
    wrap_no_empty_line_of_first_word_fits strLen 5 "ab cd" "ab" ["cd"]
      (by decide) (by decide)⟩

/-- Claim C2 counterexample: with the character-count metric and width 0,
wrap applied to the text a-newline-newline-b returns five lines, not
three: each of the two over-wide single words gets a spurious empty line
emitted before it, so the three-line shape does not hold regardless of
width. -/
theorem wrap_break_preservation_cex :
    calculate_wrapped_lines strLen 0 "a\n\nb" = ["", "a", "", "", "b"] ∧
      (calculate_wrapped_lines strLen 0 "a\n\nb").length ≠ 3 :=
  ⟨by decide, by decide⟩

/-- Claim C2 (amended): wrap applied to the text a-newline-newline-b
returns exactly three lines whose middle line is empty, for every width
at least the measured width of each of the two single-character words;
for smaller widths extra empty lines appear, as the counterexample
shows. -/
theorem wrap_break_preservation (m : String → ℕ) (W : ℕ)
    (ha : m "a" ≤ W) (hb : m "b" ≤ W) :
    calculate_wrapped_lines m W "a\n\nb" = ["a", "", "b"] := by
  have hp : splitParas "a\n\nb" = ["a", "", "b"] := rfl
  have hpa : paraLines m W "a" = ["a"] := paraLines_single m W "a" "a" (by decide) rfl ha
  have hpb : paraLines m W "b" = ["b"] := paraLines_single m W "b" "b" (by decide) rfl hb
  have hpe : paraLines m W "" = [""] := by simp [paraLines]
  simp only [calculate_wrapped_lines]
  rw [if_neg (by decide : ¬("a\n\nb" : String) = "")]
  simp only [hp, concatMap, hpa, hpb, hpe]
  rw [if_neg (by simp : ¬(["a"] ++ ([""] ++ (["b"] ++ [])) : List String) = [])]
  simp

/-- Witness for wrap_break_preservation at a concrete input. -/
theorem wrap_break_preservation_wit :
    strLen "a" ≤ 1 ∧ strLen "b" ≤ 1 ∧
      calculate_wrapped_lines strLen 1 "a\n\nb" = ["a", "", "b"] :=
  ⟨by decide, by decide, wrap_break_preservation strLen 1 (by decide) (by decide)⟩

theorem searchLoop_le (fits : ℤ → Bool) (U : ℤ) (lo hi best : ℤ) :
    best ≤ U → hi ≤ U → searchLoop fits lo hi best ≤ U := by
  induction lo, hi, best using searchLoop.induct fits with
  | case1 lo hi best hle mid hfit ih =>
    intro hb hh
    rw [searchLoop, dif_pos hle, if_pos hfit]
    exact ih (by omega) hh
  | case2 lo hi best hle mid hfit ih =>
    intro hb hh
    rw [searchLoop, dif_pos hle, if_neg hfit]
    exact ih hb (by omega)
  | case3 lo hi best hle =>
    intro hb _
    rw [searchLoop, dif_neg hle]
    exact hb

theorem searchLoop_ge (fits : ℤ → Bool) (L : ℤ) (lo hi best : ℤ) :
    L ≤ best → L ≤ lo → L ≤ searchLoop fits lo hi best := by
  induction lo, hi, best using searchLoop.induct fits with
  | case1 lo hi best hle mid hfit ih =>
    intro hb hl
    rw [searchLoop, dif_pos hle, if_pos hfit]
    exact ih (by omega) (by omega)
  | case2 lo hi best hle mid hfit ih =>
    intro hb hl
    rw [searchLoop, dif_pos hle, if_neg hfit]
    exact ih hb hl
  | case3 lo hi best hle =>
    intro hb _
    rw [searchLoop, dif_neg hle]
    exact hb

theorem searchLoop_const (fits : ℤ → Bool) (lo hi best : ℤ) :
    (∀ sz : ℤ, lo ≤ sz → sz ≤ hi → fits sz = false) →
      searchLoop fits lo hi best = best := by
  induction lo, hi, best using searchLoop.induct fits with
  | case1 lo hi best hle mid hfit ih =>
    intro hall
    rw [hall mid (by omega) (by omega)] at hfit
    exact Bool.noConfusion hfit
  | case2 lo hi best hle mid hfit ih =>
    intro hall
    rw [searchLoop, dif_pos hle, if_neg hfit]
    exact ih (fun sz h1 h2 => hall sz h1 (by omega))
  | case3 lo hi best hle =>
    intro _
    rw [searchLoop, dif_neg hle]

/-- Claim C4: for non-empty text and a viewport with width > 1 and
height > 1, adjust_font_size (a total function, so no error can be
raised) returns exactly max 8 (best - 2) where best is the size found by
the binary search; the result lies in [8, 200] and never exceeds best. -/
theorem adjust_font_size_bounds (fam : ℤ → String → ℕ) (lineH : ℤ → ℕ)
    (text : String) (width height : ℕ) (currentSize : ℤ)
    (ht : text ≠ "") (hw : 1 < width) (hh : 1 < height) :
    adjust_font_size fam lineH text width height currentSize
        = max 8 (bestSize fam lineH text width height - 2) ∧
      8 ≤ adjust_font_size fam lineH text width height currentSize ∧
      adjust_font_size fam lineH text width height currentSize ≤ 200 ∧
      adjust_font_size fam lineH text width height currentSize
        ≤ bestSize fam lineH text width height := by
  have hg : ¬(width ≤ 1 ∨ height ≤ 1) := by omega
  have he : adjust_font_size fam lineH text width height currentSize
      = max 8 (bestSize fam lineH text width height - 2) := by
    unfold adjust_font_size
    rw [if_neg ht, if_neg hg]
  have h8 : (8 : ℤ) ≤ bestSize fam lineH text width height := by
    unfold bestSize
    exact searchLoop_ge _ 8 8 200 8 (by omega) (by omega)
  have h200 : bestSize fam lineH text width height ≤ 200 := by
    unfold bestSize
    exact searchLoop_le _ 200 8 200 8 (by omega) (by omega)
  refine ⟨he, ?_, ?_, ?_⟩ <;> rw [he] <;> omega

/-- Witness for adjust_font_size_bounds at a concrete input. -/
theorem adjust_font_size_bounds_wit :
    ("hi" : String) ≠ "" ∧ 1 < (100 : ℕ) ∧ 1 < (50 : ℕ) ∧
      (adjust_font_size (fun _ s => s.length) (fun _ => 1) "hi" 100 50 0
          = max 8 (bestSize (fun _ s => s.length) (fun _ => 1) "hi" 100 50 - 2) ∧
        8 ≤ adjust_font_size (fun _ s => s.length) (fun _ => 1) "hi" 100 50 0 ∧
        adjust_font_size (fun _ s => s.length) (fun _ => 1) "hi" 100 50 0 ≤ 200 ∧
        adjust_font_size (fun _ s => s.length) (fun _ => 1) "hi" 100 50 0
          ≤ bestSize (fun _ s => s.length) (fun _ => 1) "hi" 100 50) :=
  ⟨by decide, by decide, by decide,
    adjust_font_size_bounds (fun _ s => s.length) (fun _ => 1) "hi" 100 50 0
      (by decide) (by decide) (by decide)⟩

/-- Claim C6: when every candidate size in [8, 200] yields a total
wrapped height exceeding the available height, the binary search never
records a fit, best stays at the floor 8, and adjust_font_size returns 8
(no error). -/
theorem adjust_font_size_saturates (fam : ℤ → String → ℕ) (lineH : ℤ → ℕ)
    (text : String) (width height : ℕ) (currentSize : ℤ)
    (ht : text ≠ "") (hw : 1 < width) (hh : 1 < height)
    (hbig : ∀ sz : ℤ, 8 ≤ sz → sz ≤ 200 →
      height < totalHeight fam lineH text width sz) :
    adjust_font_size fam lineH text width height currentSize = 8 := by
  have hg : ¬(width ≤ 1 ∨ height ≤ 1) := by omega
  have hb : bestSize fam lineH text width height = 8 := by
    unfold bestSize
    refine searchLoop_const _ 8 200 8 (fun sz h1 h2 => ?_)
    simp only [decide_eq_false_iff_not, not_le]
    exact hbig sz h1 h2
  unfold adjust_font_size
  rw [if_neg ht, if_neg hg, hb]
  decide

/-- Witness for adjust_font_size_saturates at a concrete input: one word
of one character, width 2, height 100, but the line height is 101 at
every size, so no candidate fits. -/
theorem adjust_font_size_saturates_wit :
    ("a" : String) ≠ "" ∧ 1 < (2 : ℕ) ∧ 1 < (100 : ℕ) ∧
      adjust_font_size (fun _ s => s.length) (fun _ => 101) "a" 2 100 0 = 8 :=
  ⟨by decide, by decide, by decide,
    adjust_font_size_saturates (fun _ s => s.length) (fun _ => 101) "a" 2 100 0
      (by decide) (by decide) (by decide)
      (fun sz h1 h2 =>
        (by decide :
          (100 : ℕ) < (calculate_wrapped_lines (fun s : String => s.length) 2 "a").length * 101))⟩

theorem greedy_lines_fit (m : String → ℕ) (W : ℕ) (S : List String) :
    ∀ ws : List String, (∀ w ∈ ws, w ∈ S) → ∀ cur : String,
      (m cur ≤ W ∨ cur ∈ S) →
      (∀ l ∈ (greedyLoop m W cur ws).1, m l ≤ W ∨ l ∈ S) ∧
        (m (greedyLoop m W cur ws).2 ≤ W ∨ (greedyLoop m W cur ws).2 ∈ S) := by
  intro ws
  induction ws with
  | nil =>
    intro _ cur hcur
    exact ⟨by simp [greedyLoop], by simpa [greedyLoop] using hcur⟩
  | cons w rest ih =>
    intro hws cur hcur
    have hwS : w ∈ S := hws w (by simp)
    have hrest : ∀ x ∈ rest, x ∈ S := fun x hx => hws x (by simp [hx])
    simp only [greedyLoop]
    by_cases hm1 : m (if cur = "" then w else cur ++ " " ++ w) ≤ W
    · rw [if_pos hm1]
      exact ih hrest _ (Or.inl hm1)
    · rw [if_neg hm1]
      obtain ⟨ih1, ih2⟩ := ih hrest w (Or.inr hwS)
      refine ⟨?_, ih2⟩
      intro l hl
      rcases List.mem_cons.mp hl with h | h
      · exact h ▸ hcur
      · exact ih1 l h

theorem paraLines_nowords (m : String → ℕ) (W : ℕ) (p : String)
    (hws : splitWords p = []) : paraLines m W p = [""] := by
  by_cases hp : p = "" <;> simp [paraLines, hp, hws]

theorem paraLines_fit (m : String → ℕ) (W : ℕ) (p : String) (hm : m "" = 0) :
    ∀ l ∈ paraLines m W p, m l ≤ W ∨ l ∈ splitWords p := by
  intro l hl
  by_cases hws : splitWords p = []
  · rw [paraLines_nowords m W p hws, List.mem_singleton] at hl
    subst hl
    exact Or.inl (hm ▸ Nat.zero_le W)
  · have hp : p ≠ "" := by
      intro h
      subst h
      exact hws rfl
    simp only [paraLines, if_neg hp, if_neg hws] at hl
    obtain ⟨h1, h2⟩ := greedy_lines_fit m W (splitWords p) (splitWords p)
      (fun x hx => hx) "" (Or.inl (hm ▸ Nat.zero_le W))
    rcases List.mem_append.mp hl with h | h
    · exact h1 l h
    · revert h
      split
      · intro h
        exact (List.mem_singleton.mp h) ▸ h2
      · intro h
        exact absurd h (List.not_mem_nil l)

/-- Claim C7: for every metric that measures the empty string as 0 (as
every real font metric does), every width and every non-empty text, wrap
returns at least one line, and every returned line either has measured
width at most the width or is literally one of the whitespace-separated
words of some paragraph of the text (a single unsplittable word). -/
theorem wrap_lines_fit_or_single_word (m : String → ℕ) (W : ℕ) (text : String)
    (hm : m "" = 0) (ht : text ≠ "") :
    calculate_wrapped_lines m W text ≠ [] ∧
      ∀ l ∈ calculate_wrapped_lines m W text,
        m l ≤ W ∨ ∃ p ∈ splitParas text, l ∈ splitWords p := by
  simp only [calculate_wrapped_lines, if_neg ht]
  split
  · refine ⟨by simp, ?_⟩
    intro l hl
    rw [List.mem_singleton.mp hl]
    exact Or.inl (hm ▸ Nat.zero_le W)
  · rename_i hall
    refine ⟨hall, ?_⟩
    intro l hl
    obtain ⟨p, hp, hlp⟩ := (mem_concatMap (paraLines m W) (splitParas text) l).mp hl
    rcases paraLines_fit m W p hm l hlp with h | h
    · exact Or.inl h
    · exact Or.inr ⟨p, hp, h⟩

/-- Witness for wrap_lines_fit_or_single_word at a concrete input: width
0 and the text ab, whose two lines are the empty line (measured 0) and
the single word ab. -/
theorem wrap_lines_fit_or_single_word_wit :
    strLen "" = 0 ∧ ("ab" : String) ≠ "" ∧
      (calculate_wrapped_lines strLen 0 "ab" ≠ [] ∧
        ∀ l ∈ calculate_wrapped_lines strLen 0 "ab",
          strLen l ≤ 0 ∨ ∃ p ∈ splitParas "ab", l ∈ splitWords p) :=
  ⟨rfl, by decide, wrap_lines_fit_or_single_word strLen 0 "ab" rfl (by decide)⟩

theorem joinWords_snoc : ∀ (c : List String) (w : String), c ≠ [] →
    joinWords (c ++ [w]) = joinWords c ++ " " ++ w := by
  intro c
  induction c with
  | nil => intro w h; exact absurd rfl h
  | cons x c ih =>
    intro w _
    cases c with
    | nil => rfl
    | cons y c2 =>
      have h1 : joinWords ((x :: y :: c2) ++ [w])
          = x ++ " " ++ joinWords ((y :: c2) ++ [w]) := rfl
      have h2 : joinWords (x :: y :: c2) = x ++ " " ++ joinWords (y :: c2) := rfl
      rw [h1, h2, ih w (by simp)]
      simp [String.append_assoc]

theorem joinWords_ne (c : List String) (hc : c ≠ []) (hne : ∀ x ∈ c, x ≠ "") :
    joinWords c ≠ "" := by
  cases c with
  | nil => exact absurd rfl hc
  | cons x c2 =>
    cases c2 with
    | nil => exact hne x (by simp)
    | cons y c3 => exact append_space_ne x (joinWords (y :: c3))

theorem greedy_chunks (m : String → ℕ) (W : ℕ) (S : List String) :
    ∀ ws : List String, ∀ cur : String, ∀ chunk pre : List String,
      S = pre ++ chunk ++ ws →
      ((chunk = [] ∧ cur = "") ∨ (chunk ≠ [] ∧ cur = joinWords chunk)) →
      (∀ x ∈ S, x ≠ "") →
      (∀ l ∈ (greedyLoop m W cur ws).1,
          l = "" ∨ ∃ c pr sf, c ≠ [] ∧ S = pr ++ c ++ sf ∧ l = joinWords c) ∧
        ((greedyLoop m W cur ws).2 = "" ∨
          ∃ c pr sf, c ≠ [] ∧ S = pr ++ c ++ sf ∧
            (greedyLoop m W cur ws).2 = joinWords c) := by
  intro ws
  induction ws with
  | nil =>
    intro cur chunk pre hS hcur hSne
    refine ⟨by simp [greedyLoop], ?_⟩
    rcases hcur with ⟨_, rfl⟩ | ⟨hc, rfl⟩
    · exact Or.inl rfl
    · exact Or.inr ⟨chunk, pre, [], hc, hS, rfl⟩
  | cons w rest ih =>
    intro cur chunk pre hS hcur hSne
    have hchunkS : ∀ x ∈ chunk, x ∈ S := by
      intro x hx
      rw [hS]
      simp [hx]
    simp only [greedyLoop]
    by_cases hm1 : m (if cur = "" then w else cur ++ " " ++ w) ≤ W
    · rw [if_pos hm1]
      apply ih (if cur = "" then w else cur ++ " " ++ w) (chunk ++ [w]) pre
      · rw [hS]
        simp
      · refine Or.inr ⟨by simp, ?_⟩
        rcases hcur with ⟨rfl, rfl⟩ | ⟨hc, rfl⟩
        · simp [joinWords]
        · have hcne : joinWords chunk ≠ "" :=
            joinWords_ne chunk hc (fun x hx => hSne x (hchunkS x hx))
          rw [if_neg hcne, joinWords_snoc chunk w hc]
      · exact hSne
    · rw [if_neg hm1]
      obtain ⟨ih1, ih2⟩ := ih w [w] (pre ++ chunk)
        (by rw [hS]; simp) (Or.inr ⟨by simp, rfl⟩) hSne
      refine ⟨?_, ih2⟩
      intro l hl
      rcases List.mem_cons.mp hl with h | h
      · subst h
        rcases hcur with ⟨_, rfl⟩ | ⟨hc, rfl⟩
        · exact Or.inl rfl
        · exact Or.inr ⟨chunk, pre, w :: rest, hc, hS, rfl⟩
      · exact ih1 l h

theorem paraLines_chunks (m : String → ℕ) (W : ℕ) (p : String) :
    ∀ l ∈ paraLines m W p,
      l = "" ∨ ∃ c pr sf, c ≠ [] ∧ splitWords p = pr ++ c ++ sf ∧ l = joinWords c := by
  intro l hl
  by_cases hws : splitWords p = []
  · rw [paraLines_nowords m W p hws, List.mem_singleton] at hl
    exact Or.inl hl
  · have hp : p ≠ "" := by
      intro h
      subst h
      exact hws rfl
    simp only [paraLines, if_neg hp, if_neg hws] at hl
    obtain ⟨h1, h2⟩ := greedy_chunks m W (splitWords p) (splitWords p) "" [] []
      (by simp) (Or.inl ⟨rfl, rfl⟩) (mem_splitWords_ne p)
    rcases List.mem_append.mp hl with h | h
    · exact h1 l h
    · revert h
      split
      · intro h
        exact (List.mem_singleton.mp h) ▸ h2
      · intro h
        exact absurd h (List.not_mem_nil l)

/-- Claim C10: every line returned by wrap is either the empty string or
a concatenation of one or more consecutive whitespace-separated words of
one of its paragraphs joined by exactly one space (so runs of spaces or
tabs and leading or trailing whitespace of a paragraph are never
preserved in the output lines). -/
theorem wrap_lines_are_word_runs (m : String → ℕ) (W : ℕ) (text l : String)
    (hl : l ∈ calculate_wrapped_lines m W text) :
    l = "" ∨ ∃ p ∈ splitParas text, ∃ c pr sf, c ≠ [] ∧
      splitWords p = pr ++ c ++ sf ∧ l = joinWords c := by
  by_cases ht : text = ""
  · subst ht
    have h0 : calculate_wrapped_lines m W "" = [""] := rfl
    rw [h0, List.mem_singleton] at hl
    exact Or.inl hl
  · simp only [calculate_wrapped_lines, if_neg ht] at hl
    revert hl
    split
    · intro hl
      exact Or.inl (List.mem_singleton.mp hl)
    · intro hl
      obtain ⟨p, hp, hlp⟩ := (mem_concatMap (paraLines m W) (splitParas text) l).mp hl
      rcases paraLines_chunks m W p l hlp with h | ⟨c, pr, sf, h1, h2, h3⟩
      · exact Or.inl h
      · exact Or.inr ⟨p, hp, c, pr, sf, h1, h2, h3⟩

/-- Witness for wrap_lines_are_word_runs at a concrete input: the line
a-space-b of wrapping the two-word text a-space-b at width 10. -/
theorem wrap_lines_are_word_runs_wit :
    ("a b" : String) ∈ calculate_wrapped_lines strLen 10 "a b" ∧
      (("a b" : String) = "" ∨ ∃ p ∈ splitParas "a b", ∃ c pr sf, c ≠ [] ∧
        splitWords p = pr ++ c ++ sf ∧ ("a b" : String) = joinWords c) :=
  ⟨by decide, wrap_lines_are_word_runs strLen 10 "a b" "a b" (by decide)⟩

theorem greedy_len_le (m1 m2 : String → ℕ) (W : ℕ)
    (hpt : ∀ s, m2 s ≤ m1 s)
    (hdrop : ∀ u v, m2 v ≤ m2 (u ++ " " ++ v)) :
    ∀ ws : List String, (∀ w ∈ ws, w ≠ "") →
      (∀ cur1 cur2 : String, cur1 ≠ "" → cur2 ≠ "" →
          (cur1 = cur2 ∨ ∃ u, cur1 = u ++ " " ++ cur2) →
          (greedyLoop m2 W cur2 ws).1.length ≤ (greedyLoop m1 W cur1 ws).1.length) ∧
      (∀ cur1 cur2 : String, cur1 ≠ "" → cur2 ≠ "" →
          (∃ u, cur2 = u ++ " " ++ cur1) →
          (greedyLoop m2 W cur2 ws).1.length ≤ (greedyLoop m1 W cur1 ws).1.length + 1) := by
  intro ws
  induction ws with
  | nil =>
    intro _
    constructor
    · intro cur1 cur2 _ _ _
      simp [greedyLoop]
    · intro cur1 cur2 _ _ _
      simp [greedyLoop]
  | cons w rest ih =>
    intro hws
    have hw : w ≠ "" := hws w (by simp)
    have hrest : ∀ x ∈ rest, x ≠ "" := fun x hx => hws x (by simp [hx])
    obtain ⟨ihA, ihB⟩ := ih hrest
    constructor
    · intro cur1 cur2 h1 h2 hrel
      rw [greedyLoop_cons m1 W cur1 w rest h1, greedyLoop_cons m2 W cur2 w rest h2]
      rcases hrel with rfl | ⟨u, rfl⟩
      · by_cases hm2 : m2 (cur1 ++ " " ++ w) ≤ W
        · by_cases hm1 : m1 (cur1 ++ " " ++ w) ≤ W
          · rw [if_pos hm1, if_pos hm2]
            exact ihA _ _ (append_space_ne cur1 w) (append_space_ne cur1 w) (Or.inl rfl)
          · rw [if_neg hm1, if_pos hm2]
            show (greedyLoop m2 W (cur1 ++ " " ++ w) rest).1.length
                ≤ (greedyLoop m1 W w rest).1.length + 1
            exact ihB w (cur1 ++ " " ++ w) hw (append_space_ne cur1 w) ⟨cur1, rfl⟩
        · have hm1 : ¬m1 (cur1 ++ " " ++ w) ≤ W := fun hle => hm2 (le_trans (hpt _) hle)
          rw [if_neg hm1, if_neg hm2]
          show (greedyLoop m2 W w rest).1.length + 1
              ≤ (greedyLoop m1 W w rest).1.length + 1
          exact Nat.succ_le_succ (ihA w w hw hw (Or.inl rfl))
      · have hassoc : (u ++ " " ++ cur2) ++ " " ++ w = u ++ " " ++ (cur2 ++ " " ++ w) := by
          simp [String.append_assoc]
        by_cases hm2 : m2 (cur2 ++ " " ++ w) ≤ W
        · by_cases hm1 : m1 ((u ++ " " ++ cur2) ++ " " ++ w) ≤ W
          · rw [if_pos hm1, if_pos hm2]
            exact ihA _ _ (append_space_ne _ w) (append_space_ne cur2 w)
              (Or.inr ⟨u, hassoc⟩)
          · rw [if_neg hm1, if_pos hm2]
            show (greedyLoop m2 W (cur2 ++ " " ++ w) rest).1.length
                ≤ (greedyLoop m1 W w rest).1.length + 1
            exact ihB w (cur2 ++ " " ++ w) hw (append_space_ne cur2 w) ⟨cur2, rfl⟩
        · have hm2b : ¬m2 ((u ++ " " ++ cur2) ++ " " ++ w) ≤ W := by
            intro hle
            apply hm2
            calc m2 (cur2 ++ " " ++ w) ≤ m2 (u ++ " " ++ (cur2 ++ " " ++ w)) := hdrop _ _
              _ = m2 ((u ++ " " ++ cur2) ++ " " ++ w) := by rw [hassoc]
              _ ≤ W := hle
          have hm1 : ¬m1 ((u ++ " " ++ cur2) ++ " " ++ w) ≤ W :=
            fun hle => hm2b (le_trans (hpt _) hle)
          rw [if_neg hm1, if_neg hm2]
          show (greedyLoop m2 W w rest).1.length + 1
              ≤ (greedyLoop m1 W w rest).1.length + 1
          exact Nat.succ_le_succ (ihA w w hw hw (Or.inl rfl))
    · intro cur1 cur2 h1 h2 hrel
      obtain ⟨u, rfl⟩ := hrel
      rw [greedyLoop_cons m1 W cur1 w rest h1, greedyLoop_cons m2 W _ w rest h2]
      have hassoc : (u ++ " " ++ cur1) ++ " " ++ w = u ++ " " ++ (cur1 ++ " " ++ w) := by
        simp [String.append_assoc]
      by_cases hm2 : m2 ((u ++ " " ++ cur1) ++ " " ++ w) ≤ W
      · by_cases hm1 : m1 (cur1 ++ " " ++ w) ≤ W
        · rw [if_pos hm1, if_pos hm2]
          exact ihB _ _ (append_space_ne cur1 w) (append_space_ne _ w) ⟨u, hassoc⟩
        · rw [if_neg hm1, if_pos hm2]
          show (greedyLoop m2 W ((u ++ " " ++ cur1) ++ " " ++ w) rest).1.length
              ≤ ((greedyLoop m1 W w rest).1.length + 1) + 1
          have hb := ihB w ((u ++ " " ++ cur1) ++ " " ++ w) hw (append_space_ne _ w)
            ⟨u ++ " " ++ cur1, rfl⟩
          omega
      · by_cases hm1 : m1 (cur1 ++ " " ++ w) ≤ W
        · rw [if_pos hm1, if_neg hm2]
          show (greedyLoop m2 W w rest).1.length + 1
              ≤ (greedyLoop m1 W (cur1 ++ " " ++ w) rest).1.length + 1
          exact Nat.succ_le_succ
            (ihA (cur1 ++ " " ++ w) w (append_space_ne cur1 w) hw (Or.inr ⟨cur1, rfl⟩))
        · rw [if_neg hm1, if_neg hm2]
          show (greedyLoop m2 W w rest).1.length + 1
              ≤ ((greedyLoop m1 W w rest).1.length + 1) + 1
          have ha := ihA w w hw hw (Or.inl rfl)
          omega

theorem paraLines_len_le (m1 m2 : String → ℕ) (W : ℕ)
    (hpt : ∀ s, m2 s ≤ m1 s)
    (hdrop : ∀ u v, m2 v ≤ m2 (u ++ " " ++ v)) (p : String) :
    (paraLines m2 W p).length ≤ (paraLines m1 W p).length := by
  by_cases hws : splitWords p = []
  · rw [paraLines_nowords m1 W p hws, paraLines_nowords m2 W p hws]
  · have hp : p ≠ "" := by
      intro h
      subst h
      exact hws rfl
    obtain ⟨w, rest, hwr⟩ : ∃ w rest, splitWords p = w :: rest := by
      cases h : splitWords p with
      | nil => exact absurd h hws
      | cons a b => exact ⟨a, b, rfl⟩
    have hw : w ≠ "" := mem_splitWords_ne p w (hwr ▸ List.mem_cons_self w rest)
    have hrest : ∀ x ∈ rest, x ≠ "" :=
      fun x hx => mem_splitWords_ne p x (hwr ▸ List.mem_cons_of_mem w hx)
    obtain ⟨ihA, -⟩ := greedy_len_le m1 m2 W hpt hdrop rest hrest
    have hfin1 : (greedyLoop m1 W "" (splitWords p)).2 ≠ "" := splitWords_fin_ne m1 W p hws
    have hfin2 : (greedyLoop m2 W "" (splitWords p)).2 ≠ "" := splitWords_fin_ne m2 W p hws
    simp only [paraLines, if_neg hp, if_neg hws]
    rw [if_pos (Or.inl hfin1), if_pos (Or.inl hfin2)]
    simp only [List.length_append, List.length_singleton]
    have hcore : (greedyLoop m2 W "" (splitWords p)).1.length
        ≤ (greedyLoop m1 W "" (splitWords p)).1.length := by
      rw [hwr, greedyLoop_start m1 W w rest, greedyLoop_start m2 W w rest]
      by_cases hm2 : m2 w ≤ W
      · by_cases hm1 : m1 w ≤ W
        · rw [if_pos hm1, if_pos hm2]
          exact ihA w w hw hw (Or.inl rfl)
        · rw [if_neg hm1, if_pos hm2]
          show (greedyLoop m2 W w rest).1.length ≤ (greedyLoop m1 W w rest).1.length + 1
          exact le_trans (ihA w w hw hw (Or.inl rfl)) (Nat.le_succ _)
      · have hm1 : ¬m1 w ≤ W := fun hle => hm2 (le_trans (hpt w) hle)
        rw [if_neg hm1, if_neg hm2]
        show (greedyLoop m2 W w rest).1.length + 1 ≤ (greedyLoop m1 W w rest).1.length + 1
        exact Nat.succ_le_succ (ihA w w hw hw (Or.inl rfl))
    omega

theorem concatMap_len_le (f1 f2 : String → List String)
    (h : ∀ p, (f2 p).length ≤ (f1 p).length) :
    ∀ ps : List String, (concatMap f2 ps).length ≤ (concatMap f1 ps).length := by
  intro ps
  induction ps with
  | nil => simp [concatMap]
  | cons p ps ih =>
    simp only [concatMap, List.length_append]
    exact Nat.add_le_add (h p) ih

theorem concatMap_ne_nil (f : String → List String) (ps : List String)
    (hps : ps ≠ []) (hf : ∀ p, f p ≠ []) : concatMap f ps ≠ [] := by
  cases ps with
  | nil => exact absurd rfl hps
  | cons p ps =>
    simp only [concatMap]
    intro h
    exact hf p (List.append_eq_nil.mp h).1

theorem calculate_wrapped_lines_len_le (m1 m2 : String → ℕ) (W : ℕ) (text : String)
    (hpt : ∀ s, m2 s ≤ m1 s)
    (hdrop : ∀ u v, m2 v ≤ m2 (u ++ " " ++ v)) :
    (calculate_wrapped_lines m2 W text).length
      ≤ (calculate_wrapped_lines m1 W text).length := by
  by_cases ht : text = ""
  · subst ht
    have e1 : calculate_wrapped_lines m1 W "" = [""] := rfl
    have e2 : calculate_wrapped_lines m2 W "" = [""] := rfl
    rw [e1, e2]
  · simp only [calculate_wrapped_lines, if_neg ht]
    have h1 : concatMap (paraLines m1 W) (splitParas text) ≠ [] :=
      concatMap_ne_nil _ _ (splitParas_ne_nil text) (paraLines_ne_nil m1 W)
    have h2 : concatMap (paraLines m2 W) (splitParas text) ≠ [] :=
      concatMap_ne_nil _ _ (splitParas_ne_nil text) (paraLines_ne_nil m2 W)
    rw [if_neg h1, if_neg h2]
    exact concatMap_len_le _ _ (paraLines_len_le m1 m2 W hpt hdrop) (splitParas text)

/-- Claim C3 counterexample: the metrics family famC3 is monotonically
non-decreasing in the font size for every string, sizes 2 > 1, yet at
width 10 the text a b c d wraps to strictly fewer lines at size 2 than at
size 1: under the larger metric the greedy loop breaks after the first
word and then packs the remaining three words onto one line, while under
the smaller metric it packs two words and then needs two more lines.
Size-monotonicity of the metric alone therefore does not imply line-count
monotonicity. -/
theorem wrap_lineCount_mono_cex :
    (∀ s : String, ∀ a b : ℤ, a ≤ b → famC3 a s ≤ famC3 b s) ∧
      (1 : ℤ) < 2 ∧
      (calculate_wrapped_lines (famC3 2) 10 "a b c d").length
        < (calculate_wrapped_lines (famC3 1) 10 "a b c d").length := by
  refine ⟨?_, by decide, by decide⟩
  intro s a b hab
  unfold famC3
  split_ifs <;> omega

/-- Claim C3 (amended): for fixed text and width, with the measured width
of every string monotonically non-decreasing in the font size AND the
measure at the smaller size monotone under prepending a word prefix to a
line (measure of v is at most the measure of u-space-v, true of any real
font metric), the number of lines at the bigger size is at least the
number at the smaller size. -/
theorem wrap_lineCount_mono (fam : ℤ → String → ℕ) (W : ℕ) (text : String)
    (s1 s2 : ℤ) (_hs : s2 < s1)
    (hmono : ∀ str : String, fam s2 str ≤ fam s1 str)
    (hdrop : ∀ u v : String, fam s2 v ≤ fam s2 (u ++ " " ++ v)) :
    (calculate_wrapped_lines (fam s2) W text).length
      ≤ (calculate_wrapped_lines (fam s1) W text).length :=
  calculate_wrapped_lines_len_le (fam s1) (fam s2) W text hmono hdrop

/-- Witness for wrap_lineCount_mono at a concrete input: the
size-independent character-count metric at sizes 2 > 1, width 3, text of
two two-character words. -/
theorem wrap_lineCount_mono_wit :
    (1 : ℤ) < 2 ∧
      (calculate_wrapped_lines ((fun (_ : ℤ) (s : String) => s.length) 1) 3 "aa bb").length
        ≤ (calculate_wrapped_lines ((fun (_ : ℤ) (s : String) => s.length) 2) 3 "aa bb").length :=
  ⟨by decide,
    wrap_lineCount_mono (fun _ s => s.length) 3 "aa bb" 2 1 (by decide)
      (fun str => le_refl _)
      (fun u v => by
        show v.length ≤ (u ++ " " ++ v).length
        have h1 : (" " : String).length = 1 := rfl
        have h2 : (u ++ " " ++ v).length = u.length + 1 + v.length := by
          simp [String.length_append, h1]
        omega)⟩
